import Mathlib

/-!
kvstore: command dispatcher, CLI preprocessing and AOF persistor

A shallow embedding of three parts of the repository:

* `internal/command/command.go`: the tag type `CommandOp`, its `String()` table
  and the dispatcher `New`;
* `cli/cli.go`: `CLI.preprocess` and the per-command packet builders;
* `internal/storage/aof_persistor.go`: `Write`, `Flush`, `Truncate`, `Close`.

Go byte slices and strings are lists of byte values (`Nat`, each below 256);
a nil slice and an empty slice are both the empty list.
-/

namespace KVStore

/-- A Go byte slice or string: the list of its byte values. -/
abbrev Bytes := List Nat

/-! ## internal/command/command.go -/

namespace command

/-- The tag type `type CommandOp int`. -/
abbrev CommandOp := Int

/-- The constant `SET CommandOp = iota`. -/
def SET : CommandOp := (0 : Int)
/-- The constant `GET`. -/
def GET : CommandOp := (1 : Int)
/-- The constant `DEL`. -/
def DEL : CommandOp := (2 : Int)
/-- The constant `LIST`. -/
def LIST : CommandOp := (3 : Int)
/-- The constant `KEYS`. -/
def KEYS : CommandOp := (4 : Int)

/-- The array literal of `String()`:
`[...]string{"set", "get", "del", "list", "keys"}`. -/
def names : List Bytes :=
  [ [115, 101, 116],        -- "set"
    [103, 101, 116],        -- "get"
    [100, 101, 108],        -- "del"
    [108, 105, 115, 116],   -- "list"
    [107, 101, 121, 115] ]  -- "keys"

/-- The method `func (c CommandOp) String() string`: the array literal indexed by
`c`.  Indexing outside the array is a run-time panic, rendered as `none`. -/
def String (c : CommandOp) : Option Bytes :=
  if 0 ≤ c ∧ c < (names.length : Int) then names[c.toNat]? else none

/-- The handler constructors `makeSetCommand`, ..., `makeKeysCommand` called by
`New`.  Their bodies are in files that are not part of the sources; each takes the
store and returns a handler of type `H`. -/
structure Makers (DB H : Type) where
  makeSetCommand : DB → H
  makeGetCommand : DB → H
  makeDelCommand : DB → H
  makeListCommand : DB → H
  makeKeysCommand : DB → H

/-- The dispatcher `func New(db *hashtable.HashTable, cmd CommandOp) Command`:
the switch over `cmd`; `none` is the nil interface value of the default branch. -/
def New {DB H : Type} (mk : Makers DB H) (db : DB) (cmd : CommandOp) : Option H :=
  if cmd = SET then some (mk.makeSetCommand db)
  else if cmd = GET then some (mk.makeGetCommand db)
  else if cmd = DEL then some (mk.makeDelCommand db)
  else if cmd = LIST then some (mk.makeListCommand db)
  else if cmd = KEYS then some (mk.makeKeysCommand db)
  else none

/-- The tags declared in the `const` block, with their source names. -/
def declared : List (Bytes × CommandOp) :=
  [ ([83, 69, 84], SET),          -- SET
    ([71, 69, 84], GET),          -- GET
    ([68, 69, 76], DEL),          -- DEL
    ([76, 73, 83, 84], LIST),     -- LIST
    ([75, 69, 89, 83], KEYS) ]    -- KEYS

end command

/-! ## Go standard library: unicode/utf8, unicode, bytes -/

namespace utf8

/-- The constant `utf8.RuneError`. -/
def RuneError : Nat := 0xFFFD
/-- The constant `utf8.RuneSelf`: bytes below it are single-byte runes. -/
def RuneSelf : Nat := 0x80
/-- The constant `utf8.UTFMax`. -/
def UTFMax : Nat := 4

/-- The table `first`: information about the first byte of an encoding
(`as = 0xF0`, `xx = 0xF1`, `s1 = 0x02`, ..., `s7 = 0x44`). -/
def first (p0 : Nat) : Nat :=
  if p0 < 0x80 then 0xF0
  else if p0 < 0xC2 then 0xF1
  else if p0 < 0xE0 then 0x02
  else if p0 = 0xE0 then 0x13
  else if p0 < 0xED then 0x03
  else if p0 = 0xED then 0x23
  else if p0 < 0xF0 then 0x03
  else if p0 = 0xF0 then 0x34
  else if p0 < 0xF4 then 0x04
  else if p0 = 0xF4 then 0x44
  else 0xF1

/-- The lower bounds `lo` of the table `acceptRanges` (entries 0 to 4 are set, the
others are zero). -/
def acceptLo (k : Nat) : Nat :=
  if k = 0 then 0x80
  else if k = 1 then 0xA0
  else if k = 2 then 0x80
  else if k = 3 then 0x90
  else if k = 4 then 0x80
  else 0

/-- The upper bounds `hi` of the table `acceptRanges`. -/
def acceptHi (k : Nat) : Nat :=
  if k = 0 then 0xBF
  else if k = 1 then 0xBF
  else if k = 2 then 0x9F
  else if k = 3 then 0xBF
  else if k = 4 then 0x8F
  else 0

/-- The function `utf8.DecodeRune`: the first rune of `p` and its width in bytes.
Masks and shifts are written with `%` and `*` (`p0 & mask2 = p0 % 32`,
`x << 6 = x * 64`, and the or-ed bit fields are disjoint). -/
def DecodeRune (p : Bytes) : Nat × Nat :=
  match p with
  | [] => (RuneError, 0)
  | p0 :: _ =>
    let x := first p0
    if x ≥ 0xF0 then
      (if x = 0xF0 then p0 else RuneError, 1)
    else
      let sz := x % 8
      let lo := acceptLo (x / 16)
      let hi := acceptHi (x / 16)
      if p.length < sz then (RuneError, 1)
      else
        let b1 := p.getD 1 0
        if b1 < lo ∨ hi < b1 then (RuneError, 1)
        else if sz ≤ 2 then ((p0 % 32) * 64 + b1 % 64, 2)
        else
          let b2 := p.getD 2 0
          if b2 < 0x80 ∨ 0xBF < b2 then (RuneError, 1)
          else if sz ≤ 3 then ((p0 % 16) * 4096 + (b1 % 64) * 64 + b2 % 64, 3)
          else
            let b3 := p.getD 3 0
            if b3 < 0x80 ∨ 0xBF < b3 then (RuneError, 1)
            else ((p0 % 8) * 262144 + (b1 % 64) * 4096 + (b2 % 64) * 64 + b3 % 64, 4)

/-- The function `utf8.RuneStart`: `b&0xC0 != 0x80`. -/
def RuneStart (b : Nat) : Bool := (b / 64) % 4 != 2

/-- The backward scan of `DecodeLastRune`:
`for start--; start >= lim; start-- { if RuneStart(p[start]) { break } }`,
entered with the already decremented `start`; it runs at most `UTFMax` times. -/
def lastRuneStart (p : Bytes) (lim : Int) : Nat → Int → Int
  | 0, start => start
  | fuel + 1, start =>
    if start ≥ lim then
      if RuneStart (p.getD start.toNat 0) then start
      else lastRuneStart p lim fuel (start - 1)
    else start

/-- The function `utf8.DecodeLastRune`: the last rune of `p` and its width. -/
def DecodeLastRune (p : Bytes) : Nat × Nat :=
  let stop := p.length
  if stop = 0 then (RuneError, 0)
  else
    let r := p.getD (stop - 1) 0
    if r < RuneSelf then (r, 1)
    else
      let lim : Int := if (stop : Int) - UTFMax < 0 then 0 else (stop : Int) - UTFMax
      let start0 := lastRuneStart p lim UTFMax ((stop : Int) - 2)
      let start := if start0 < 0 then 0 else start0.toNat
      let rs := DecodeRune (p.drop start)
      if start + rs.2 ≠ stop then (RuneError, 1) else rs

end utf8

namespace unicode

/-- The function `unicode.IsSpace`: the Latin-1 switch, and the `White_Space`
range table for the other runes. -/
def IsSpace (r : Nat) : Bool :=
  if r ≤ 0xFF then
    r = 9 || r = 10 || r = 11 || r = 12 || r = 13 || r = 32 || r = 0x85 || r = 0xA0
  else
    r = 0x1680 || (0x2000 ≤ r && r ≤ 0x200A) || r = 0x2028 || r = 0x2029
      || r = 0x202F || r = 0x205F || r = 0x3000

end unicode

namespace bytes

/-- The function `bytes.Equal`. -/
def Equal (a b : Bytes) : Bool := a == b

/-- The function `bytes.Split(s, sep)` for a one-byte separator, which is what
both call sites pass (`[]byte(" ")`): the pieces of `s` between the occurrences
of `sep`, `Count(s, sep) + 1` of them. -/
def Split (s : Bytes) (sep : Nat) : List Bytes :=
  match s with
  | [] => [[]]
  | b :: rest =>
    if b = sep then [] :: Split rest sep
    else
      match Split rest sep with
      | [] => [[b]]
      | t :: ts => (b :: t) :: ts

/-- The function `bytes.TrimPrefix`. -/
def TrimPrefix (s pre : Bytes) : Bytes :=
  if pre.isPrefixOf s then s.drop pre.length else s

/-- The ASCII branch of `bytes.ToLower` on one byte. -/
def lowerByte (c : Nat) : Nat := if 65 ≤ c ∧ c ≤ 90 then c + 32 else c

/-- The function `bytes.ToLower`.  An all-ASCII slice is lowered byte by byte; any
other slice goes through `bytes.Map(unicode.ToLower, s)`, which depends on the
Unicode case tables and is the parameter `mapLower`. -/
def ToLower (mapLower : Bytes → Bytes) (s : Bytes) : Bytes :=
  if s.all (fun c => c < utf8.RuneSelf) then s.map lowerByte else mapLower s

/-- The table `asciiSpace`. -/
def asciiSpace (c : Nat) : Bool :=
  c = 9 || c = 10 || c = 11 || c = 12 || c = 13 || c = 32

/-- The function `bytes.indexFunc`, its loop: the index of the first rune at or
after `start` on which `f` answers `truth`, or `-1`.  Every turn advances `start`,
so `len(s) - start` turns are enough. -/
def indexFuncLoop (s : Bytes) (f : Nat → Bool) (truth : Bool) : Nat → Nat → Int
  | 0, _ => -1
  | fuel + 1, start =>
    if start < s.length then
      let c := s.getD start 0
      let rw := if c ≥ utf8.RuneSelf then utf8.DecodeRune (s.drop start) else (c, 1)
      if f rw.1 = truth then (start : Int)
      else indexFuncLoop s f truth fuel (start + rw.2)
    else -1

/-- The function `bytes.indexFunc`. -/
def indexFunc (s : Bytes) (f : Nat → Bool) (truth : Bool) : Int :=
  indexFuncLoop s f truth s.length 0

/-- The function `bytes.lastIndexFunc`, its loop `for i := len(s); i > 0;`: the
index of the last rune before `i` on which `f` answers `truth`, or `-1`.  Every
turn lowers `i`, so `i` turns are enough. -/
def lastIndexFuncLoop (s : Bytes) (f : Nat → Bool) (truth : Bool) : Nat → Nat → Int
  | 0, _ => -1
  | fuel + 1, i =>
    if i > 0 then
      let c := s.getD (i - 1) 0
      let rw := if c ≥ utf8.RuneSelf then utf8.DecodeLastRune (s.take i) else (c, 1)
      let j := i - rw.2
      if f rw.1 = truth then (j : Int)
      else lastIndexFuncLoop s f truth fuel j
    else -1

/-- The function `bytes.lastIndexFunc`. -/
def lastIndexFunc (s : Bytes) (f : Nat → Bool) (truth : Bool) : Int :=
  lastIndexFuncLoop s f truth s.length s.length

/-- The function `bytes.TrimLeftFunc`. -/
def TrimLeftFunc (s : Bytes) (f : Nat → Bool) : Bytes :=
  let i := indexFunc s f false
  if i = -1 then [] else s.drop i.toNat

/-- The function `bytes.TrimRightFunc`. -/
def TrimRightFunc (s : Bytes) (f : Nat → Bool) : Bytes :=
  let i := lastIndexFunc s f false
  if i ≥ 0 ∧ s.getD i.toNat 0 ≥ utf8.RuneSelf then
    s.take (i.toNat + (utf8.DecodeRune (s.drop i.toNat)).2)
  else
    s.take (i + 1).toNat

/-- The function `bytes.TrimFunc`. -/
def TrimFunc (s : Bytes) (f : Nat → Bool) : Bytes :=
  TrimRightFunc (TrimLeftFunc s f) f

/-- How a scan of the ASCII fast path of `TrimSpace` ends: at an index, or at a
non-ASCII byte from which the Unicode-aware `TrimFunc` takes over. -/
inductive Scan where
  | done (i : Nat)
  | slow (i : Nat)

/-- The first loop of `bytes.TrimSpace`, over the bytes from `start` on:
`for ; start < len(s); start++`. -/
def scanStart : Bytes → Nat → Scan
  | [], start => .done start
  | c :: rest, start =>
    if c ≥ utf8.RuneSelf then .slow start
    else if asciiSpace c then scanStart rest (start + 1)
    else .done start

/-- The second loop of `bytes.TrimSpace`: `for ; stop > start; stop--`. -/
def scanStop (s : Bytes) (start : Nat) : Nat → Scan
  | 0 => .done 0
  | stop + 1 =>
    if stop + 1 > start then
      let c := s.getD stop 0
      if c ≥ utf8.RuneSelf then .slow (stop + 1)
      else if asciiSpace c then scanStop s start stop
      else .done (stop + 1)
    else .done (stop + 1)

/-- The function `bytes.TrimSpace`. -/
def TrimSpace (s : Bytes) : Bytes :=
  match scanStart s 0 with
  | .slow start => TrimFunc (s.drop start) unicode.IsSpace
  | .done start =>
    match scanStop s start s.length with
    | .slow stop => TrimFunc ((s.take stop).drop start) unicode.IsSpace
    | .done stop => if start = stop then [] else (s.take stop).drop start

/-- A slice that neither starts nor ends with a space byte (the empty slice
included). -/
def Trimmed (t : Bytes) : Prop := t[0]? ≠ some 32 ∧ t[t.length - 1]? ≠ some 32

instance (t : Bytes) : Decidable (Trimmed t) := by
  unfold Trimmed
  infer_instance

end bytes

/-! ## cli/cli.go -/

namespace cli

/-- Modelled from the spec: the package `github.com/HotPotatoC/kvstore/command`
that cli.go imports is not among the sources (the sources hold the package
`internal/command`, which has no `FLUSH`, no `INFO` and no error values).  The
spec gives a command tag as one of `{SET, GET, DEL, LIST, KEYS, FLUSH, INFO}`. -/
inductive Tag where
  | SET | GET | DEL | LIST | KEYS | FLUSH | INFO
  deriving DecidableEq, Repr

/-- Modelled from the spec: `String()` of the tags that cli.go imports, missing from
the sources like `Tag`.  The spec's command surface names the tags by the tokens
`set`, `get`, `del`, `list`, `keys`, `flush`, `info`. -/
def Tag.String : Tag → Bytes
  | .SET => [115, 101, 116]            -- "set"
  | .GET => [103, 101, 116]            -- "get"
  | .DEL => [100, 101, 108]            -- "del"
  | .LIST => [108, 105, 115, 116]      -- "list"
  | .KEYS => [107, 101, 121, 115]      -- "keys"
  | .FLUSH => [102, 108, 117, 115, 104] -- "flush"
  | .INFO => [105, 110, 102, 111]      -- "info"

/-- The case label `"exit"` of the switch in `preprocess`. -/
def exitToken : Bytes := [101, 120, 105, 116]

/-- The error values that the CLI returns: the three values of the command package
that cli.go names, and the `fmt.Errorf("failed processing input: ...")` of
`preprocess`. -/
inductive Error where
  | ErrCommandDoesNotExist
  | ErrMissingKeyArg
  | ErrMissingKeyValueArg
  | failedProcessingInput
  deriving DecidableEq, Repr

/-- Modelled from the spec: the type `packet.Packet` built by `packet.NewPacket`,
missing from the sources; the spec gives a packet as
`(command: Command tag, payload: bytes)`. -/
structure Packet where
  cmd : Tag
  data : Bytes
  deriving DecidableEq, Repr

/-- The constructor `packet.NewPacket(cmd, data)`. -/
def NewPacket (cmd : Tag) (data : Bytes) : Packet := ⟨cmd, data⟩

/-- The method `func (c *CLI) set(args []byte) (*packet.Packet, error)`. -/
def set (args : Bytes) : Except Error Packet :=
  if (bytes.Split args 32).length < 2 then .error .ErrMissingKeyValueArg
  else .ok (NewPacket .SET args)

/-- The method `func (c *CLI) get(args []byte) (*packet.Packet, error)`. -/
def get (args : Bytes) : Except Error Packet :=
  if bytes.Equal args [] then .error .ErrMissingKeyArg
  else .ok (NewPacket .GET args)

/-- The method `func (c *CLI) del(args []byte) (*packet.Packet, error)`. -/
def del (args : Bytes) : Except Error Packet :=
  if bytes.Equal args [] then .error .ErrMissingKeyArg
  else .ok (NewPacket .DEL args)

/-- The method `func (c *CLI) list() (*packet.Packet, error)`. -/
def list : Except Error Packet := .ok (NewPacket .LIST [])

/-- The method `func (c *CLI) keys() (*packet.Packet, error)`. -/
def keys : Except Error Packet := .ok (NewPacket .KEYS [])

/-- The method `func (c *CLI) flush() (*packet.Packet, error)`. -/
def flush : Except Error Packet := .ok (NewPacket .FLUSH [])

/-- The method `func (c *CLI) info() (*packet.Packet, error)`. -/
def info : Except Error Packet := .ok (NewPacket .INFO [])

/-- How a call of `preprocess` ends. -/
inductive Outcome (α : Type) where
  /-- The call returns `(value, nil)`. -/
  | ok (value : α)
  /-- The call returns `(nil, err)`. -/
  | error (err : Error)
  /-- The `"exit"` case: the connection is closed and `os.Exit(0)` ends the process. -/
  | exit
  /-- An index out of range stops the call with a run-time panic. -/
  | panicked
  deriving DecidableEq, Repr

/-- What a case of the switch does with the result of its builder:
`if packet, err = c.set(args); err != nil { return nil, err }`. -/
def Outcome.ofBuilder : Except Error Packet → Outcome Packet
  | .ok p => .ok p
  | .error e => .error e

/-- The first token of the line: `bytes.Split(data, []byte(" "))[0]`, `none` when
the index is out of range. -/
def rawCmdOf (data : Bytes) : Option Bytes := (bytes.Split data 32)[0]?

/-- The command token that the switch compares:
`bytes.ToLower(bytes.TrimSpace(rawCmd))`. -/
def cmdOf (mapLower : Bytes → Bytes) (rawCmd : Bytes) : Bytes :=
  bytes.ToLower mapLower (bytes.TrimSpace rawCmd)

/-- The argument text: `bytes.TrimSpace(bytes.TrimPrefix(data, rawCmd))`. -/
def argsOf (data rawCmd : Bytes) : Bytes :=
  bytes.TrimSpace (bytes.TrimPrefix data rawCmd)

/-- The method `CLI.preprocess` up to and including its switch: the packet that
the line builds. -/
def preprocessPacket (mapLower : Bytes → Bytes) (data : Bytes) : Outcome Packet :=
  match rawCmdOf data with
  | none => .panicked
  | some rawCmd =>
    let cmd := cmdOf mapLower rawCmd
    let args := argsOf data rawCmd
    if cmd = Tag.SET.String then Outcome.ofBuilder (set args)
    else if cmd = Tag.GET.String then Outcome.ofBuilder (get args)
    else if cmd = Tag.DEL.String then Outcome.ofBuilder (del args)
    else if cmd = Tag.LIST.String then Outcome.ofBuilder list
    else if cmd = Tag.KEYS.String then Outcome.ofBuilder keys
    else if cmd = Tag.FLUSH.String then Outcome.ofBuilder flush
    else if cmd = Tag.INFO.String then Outcome.ofBuilder info
    else if cmd = exitToken then .exit
    else .error .ErrCommandDoesNotExist

/-- The method `func (c *CLI) preprocess(data []byte) (*bytes.Buffer, error)`: the
switch, then `packet.Encode()`.  The encoder is missing from the sources and is the
parameter `encode`, `none` being its error. -/
def preprocess (mapLower : Bytes → Bytes) (encode : Packet → Option Bytes)
    (data : Bytes) : Outcome Bytes :=
  match preprocessPacket mapLower data with
  | .ok p =>
    match encode p with
    | some buffer => .ok buffer
    | none => .error .failedProcessingInput
  | .error e => .error e
  | .exit => .exit
  | .panicked => .panicked

/-- One turn of the loop of `CLI.Start` on the line `input`: the bytes handed to
`c.comm.Send`, if any.  On an error the loop logs it and goes on to the next line
(`continue start`) without sending. -/
def startSends (mapLower : Bytes → Bytes) (encode : Packet → Option Bytes)
    (input : Bytes) : Option Bytes :=
  match preprocess mapLower encode input with
  | .ok preprocessed => some preprocessed
  | _ => none

/-- The eight tokens of the command surface: `set`, `get`, `del`, `list`, `keys`,
`flush`, `info` and the client-local `exit`. -/
def commandTokens : List Bytes :=
  [Tag.SET.String, Tag.GET.String, Tag.DEL.String, Tag.LIST.String, Tag.KEYS.String,
    Tag.FLUSH.String, Tag.INFO.String, exitToken]

/-- The key of a SET payload: the text before its first space. -/
def keyOf (payload : Bytes) : Bytes := payload.takeWhile (fun c => c != 32)

/-- The value of a SET payload: the text after its first space. -/
def valueOf (payload : Bytes) : Bytes := (payload.dropWhile (fun c => c != 32)).drop 1

/-- The last space-separated token of a payload. -/
def lastTokenOf (payload : Bytes) : Bytes := ((bytes.Split payload 32).getLast?).getD []

end cli

/-! ## internal/storage/aof_persistor.go -/

namespace storage

/-- The log file behind `*os.File`, opened with `O_APPEND|O_CREATE|O_RDWR`: its
content, whether the descriptor has been closed, and whether the file is synced,
that is nothing has been written or truncated through the descriptor since the
last `Sync` (or since it was opened). -/
structure File where
  content : Bytes
  closed : Bool
  synced : Bool
  deriving DecidableEq, Repr

/-- The method `(*os.File).Write` on an `O_APPEND` descriptor: the bytes go to the
end of the file.  The result is the file, the count written and whether the call
failed; the only failure of the model is a closed descriptor. -/
def File.Write (f : File) (p : Bytes) : File × Nat × Bool :=
  if f.closed then (f, 0, true)
  else ({ f with content := f.content ++ p, synced := false }, p.length, false)

/-- The method `(*os.File).Truncate(0)`; the second component tells a failure. -/
def File.Truncate0 (f : File) : File × Bool :=
  if f.closed then (f, true) else ({ f with content := [], synced := false }, false)

/-- The constant `defaultBufSize` of bufio: the size of the buffer that
`bufio.NewWriter(file)` allocates. -/
def defaultBufSize : Nat := 4096

/-- The state of the `*bufio.Writer`: the pending bytes `buf[0:n]` and the sticky
error `err`. -/
structure Writer where
  buf : Bytes
  err : Bool
  deriving DecidableEq, Repr

/-- The fields `file`, `writer` and `quit` of `AOFPersistor`.  The channel `quit`
is unbuffered and its only receiver is the loop that `Run` starts, so its state is
the number `runners` of such loops that are alive and will receive on it.  The
scanner is left out, and so is the mutex: every method below runs as one step. -/
structure AOFPersistor where
  file : File
  writer : Writer
  runners : Nat
  deriving DecidableEq, Repr

/-- The state that `NewAOFPersistor` returns for a log file whose content is `F`:
the file just opened, an empty writer, and no `Run` loop yet. -/
def NewAOFPersistor (F : Bytes) : AOFPersistor :=
  { file := { content := F, closed := false, synced := true },
    writer := { buf := [], err := false },
    runners := 0 }

/-- The method `(*bufio.Writer).Available`. -/
def available (w : Writer) : Nat := defaultBufSize - w.buf.length

/-- The method `(*bufio.Writer).Flush`; the second component tells a failure. -/
def bufioFlush (a : AOFPersistor) : AOFPersistor × Bool :=
  if a.writer.err then (a, true)
  else if a.writer.buf.length = 0 then (a, false)
  else
    let r := a.file.Write a.writer.buf
    if r.2.2 then
      ({ a with file := r.1, writer := { buf := a.writer.buf.drop r.2.1, err := true } },
        true)
    else
      ({ a with file := r.1, writer := { buf := [], err := false } }, false)

/-- The loop of `(*bufio.Writer).Write`:
`for len(p) > b.Available() && b.err == nil`, returning the state and what is left
of `p`.  A turn either writes all of `p` to the file or empties the buffer, so two
turns end it. -/
def writeLoop : Nat → AOFPersistor → Bytes → AOFPersistor × Bytes
  | 0, a, p => (a, p)
  | fuel + 1, a, p =>
    if p.length > available a.writer ∧ a.writer.err = false then
      if a.writer.buf.length = 0 then
        let r := a.file.Write p
        writeLoop fuel { a with file := r.1, writer := { a.writer with err := r.2.2 } }
          (p.drop r.2.1)
      else
        let n := min (available a.writer) p.length
        let a1 : AOFPersistor :=
          { a with writer := { a.writer with buf := a.writer.buf ++ p.take n } }
        writeLoop fuel (bufioFlush a1).1 (p.drop n)
    else (a, p)

/-- The method `(*bufio.Writer).Write`. -/
def bufioWrite (a : AOFPersistor) (p : Bytes) : AOFPersistor :=
  let r := writeLoop (p.length + 2) a p
  if r.1.writer.err then r.1
  else
    let n := min (available r.1.writer) r.2.length
    { r.1 with writer := { r.1.writer with buf := r.1.writer.buf ++ r.2.take n } }

/-- The method `func (aof *AOFPersistor) Write(data string)`:
`fmt.Fprintln(aof.writer, data)` hands `data` and a newline to the writer in one
call and its result is dropped. -/
def AOFPersistor.Write (aof : AOFPersistor) (data : Bytes) : AOFPersistor :=
  bufioWrite aof (data ++ [10])

/-- The method `func (aof *AOFPersistor) Flush() error`. -/
def AOFPersistor.Flush (aof : AOFPersistor) : AOFPersistor × Bool :=
  bufioFlush aof

/-- The method `func (aof *AOFPersistor) Truncate() error`. -/
def AOFPersistor.Truncate (aof : AOFPersistor) : AOFPersistor × Bool :=
  let r := aof.file.Truncate0
  ({ aof with file := r.1 }, r.2)

/-- The calls `Write(r1), ..., Write(rn)` in this order. -/
def writeAll (aof : AOFPersistor) (records : List Bytes) : AOFPersistor :=
  records.foldl AOFPersistor.Write aof

/-- The text that the records occupy in the log: each one followed by a newline. -/
def logText (records : List Bytes) : Bytes :=
  (records.map (fun r => r ++ [10])).flatten

end storage

/-! ## Theorems: the dispatcher -/

namespace command

theorem String_isSome_iff (c : Int) : (String c).isSome ↔ 0 ≤ c ∧ c ≤ 4 := by
  unfold String
  by_cases h : 0 ≤ c ∧ c < (names.length : Int)
  · rw [if_pos h]
    have h2 : c.toNat < names.length := by
      have := h.2
      omega
    simp only [List.getElem?_eq_getElem h2, Option.isSome_some, true_iff]
    have := h.2
    simp only [names, List.length_cons, List.length_nil] at this
    omega
  · rw [if_neg h]
    simp only [names, List.length_cons, List.length_nil] at h
    simp only [Option.isSome_none, Bool.false_eq_true, false_iff]
    omega

theorem New_isSome_iff {DB H : Type} (mk : Makers DB H) (db : DB) (c : Int) :
    (New mk db c).isSome ↔ 0 ≤ c ∧ c ≤ 4 := by
  constructor
  · intro h
    by_contra hc
    have h0 : c ≠ 0 := by omega
    have h1 : c ≠ 1 := by omega
    have h2 : c ≠ 2 := by omega
    have h3 : c ≠ 3 := by omega
    have h4 : c ≠ 4 := by omega
    simp [New, SET, GET, DEL, LIST, KEYS, h0, h1, h2, h3, h4] at h
  · intro h
    have : c = 0 ∨ c = 1 ∨ c = 2 ∨ c = 3 ∨ c = 4 := by omega
    rcases this with h | h | h | h | h <;> subst h <;> simp [New, SET, GET, DEL, LIST, KEYS]

/-- C4: for every tag value that is none of the tags of the switch (SET, GET, DEL,
LIST, KEYS), `New` returns nil.  The result is `none` whatever the store and the
handler constructors are: the default branch calls no constructor and does not
touch `db`; `New` has no indexing or other step that could panic. -/
theorem New_unrecognized_nil {DB H : Type} (mk : Makers DB H) (db : DB) (c : Int)
    (h : c ≠ SET ∧ c ≠ GET ∧ c ≠ DEL ∧ c ≠ LIST ∧ c ≠ KEYS) :
    New mk db c = none := by
  obtain ⟨h0, h1, h2, h3, h4⟩ := h
  simp [New, h0, h1, h2, h3, h4]

/-- C4 at a concrete input: the tag value 7 over a store of naturals. -/
theorem New_unrecognized_nil_witness :
    ((7 : Int) ≠ SET ∧ (7 : Int) ≠ GET ∧ (7 : Int) ≠ DEL
      ∧ (7 : Int) ≠ LIST ∧ (7 : Int) ≠ KEYS)
    ∧ New (Makers.mk (fun (n : Nat) => n) (fun n => n + 1) (fun n => n + 2)
        (fun n => n + 3) (fun n => n + 4)) 0 7 = none :=
  ⟨by decide, New_unrecognized_nil _ 0 7 (by decide)⟩

/-- C5 (as stated, refuted): FLUSH and INFO are not tags of this package.  No value
of `CommandOp` is named `flush` or `info` by `String()`, and the `const` block
declares neither name. -/
theorem flush_info_not_named :
    (¬ ∃ c : Int, String c = some [102, 108, 117, 115, 104])
    ∧ (¬ ∃ c : Int, String c = some [105, 110, 102, 111])
    ∧ (¬ ∃ c : Int, (([70, 76, 85, 83, 72] : Bytes), c) ∈ declared)
    ∧ (¬ ∃ c : Int, (([73, 78, 70, 79] : Bytes), c) ∈ declared) := by
  have key : ∀ c : Int, ∀ b : Bytes, String c = some b → b ∈ names := by
    intro c b hb
    unfold String at hb
    split_ifs at hb with h
    exact List.getElem?_mem hb
  refine ⟨?_, ?_, ?_, ?_⟩
  · rintro ⟨c, hc⟩
    have := key c _ hc
    revert this
    decide
  · rintro ⟨c, hc⟩
    have := key c _ hc
    revert this
    decide
  · rintro ⟨c, hc⟩
    simp [declared] at hc
  · rintro ⟨c, hc⟩
    simp [declared] at hc

/-- C5 (amended): each of the five tags SET, GET, DEL, LIST, KEYS is a declared
`CommandOp` that `New` resolves to a handler and that `String()` names by its
lower-case token; these five are all the tags that `New` resolves. -/
theorem five_tags_resolved_and_named {DB H : Type} (mk : Makers DB H) (db : DB) :
    (New mk db SET = some (mk.makeSetCommand db) ∧ String SET = some [115, 101, 116])
    ∧ (New mk db GET = some (mk.makeGetCommand db) ∧ String GET = some [103, 101, 116])
    ∧ (New mk db DEL = some (mk.makeDelCommand db) ∧ String DEL = some [100, 101, 108])
    ∧ (New mk db LIST = some (mk.makeListCommand db)
        ∧ String LIST = some [108, 105, 115, 116])
    ∧ (New mk db KEYS = some (mk.makeKeysCommand db)
        ∧ String KEYS = some [107, 101, 121, 115])
    ∧ declared.map Prod.snd = [SET, GET, DEL, LIST, KEYS]
    ∧ ∀ c : Int, (New mk db c).isSome ↔ c ∈ [SET, GET, DEL, LIST, KEYS] := by
  refine ⟨⟨rfl, rfl⟩, ⟨rfl, rfl⟩, ⟨rfl, rfl⟩, ⟨rfl, rfl⟩, ⟨rfl, rfl⟩, rfl, ?_⟩
  intro c
  rw [New_isSome_iff]
  simp only [SET, GET, DEL, LIST, KEYS, List.mem_cons, List.mem_singleton,
    List.not_mem_nil, or_false]
  omega

/-- C9: for every integer value `c` of `CommandOp`, the table lookup of `String()`
is within bounds if and only if `New(db, c)` returns a handler, and both hold
exactly for `0 <= c <= 4`. -/
theorem String_inBounds_iff_New_resolves {DB H : Type} (mk : Makers DB H) (db : DB)
    (c : Int) :
    ((String c).isSome ↔ (New mk db c).isSome)
    ∧ ((String c).isSome ↔ 0 ≤ c ∧ c ≤ 4)
    ∧ ((New mk db c).isSome ↔ 0 ≤ c ∧ c ≤ 4) :=
  ⟨(String_isSome_iff c).trans (New_isSome_iff mk db c).symm, String_isSome_iff c,
    New_isSome_iff mk db c⟩

end command

/-! ## Theorems: the byte functions -/

namespace bytes

open utf8

theorem Split_ne_nil (s : Bytes) (sep : Nat) : Split s sep ≠ [] := by
  induction s with
  | nil => simp [Split]
  | cons b rest ih =>
    unfold Split
    split_ifs
    · simp
    · cases h : Split rest sep with
      | nil => exact absurd h ih
      | cons t ts => simp

theorem Split_length (s : Bytes) (sep : Nat) :
    (Split s sep).length = s.count sep + 1 := by
  induction s with
  | nil => simp [Split]
  | cons b rest ih =>
    unfold Split
    by_cases hb : b = sep
    · subst hb
      simp [ih]
    · rw [if_neg hb]
      have hcount : (b :: rest).count sep = rest.count sep := by
        simp [List.count_cons, hb]
      cases h : Split rest sep with
      | nil => exact absurd h (Split_ne_nil rest sep)
      | cons t ts =>
        rw [h] at ih
        simp only [List.length_cons] at ih ⊢
        omega

theorem Split_length_lt_two_iff (s : Bytes) (sep : Nat) :
    (Split s sep).length < 2 ↔ sep ∉ s := by
  rw [Split_length, ← List.count_eq_zero]
  omega

theorem acceptLo_ge (k : Nat) (hk : k ≤ 4) : 0x80 ≤ acceptLo k := by
  unfold acceptLo
  split_ifs <;> omega

theorem first_multi (p0 : Nat) (h : ¬ first p0 ≥ 0xF0) :
    0x80 ≤ p0 ∧ 2 ≤ first p0 % 8 ∧ first p0 % 8 ≤ 4 ∧ first p0 / 16 ≤ 4 := by
  generalize hx : first p0 = x at h ⊢
  unfold first at hx
  repeat' split at hx
  all_goals exact ⟨by omega, by omega, by omega, by omega⟩

theorem DecodeRune_width (p : Bytes) (hne : p ≠ []) :
    1 ≤ (DecodeRune p).2 ∧ (DecodeRune p).2 ≤ p.length
    ∧ (2 ≤ (DecodeRune p).2 →
        0x80 ≤ p.getD 0 0 ∧ 0x80 ≤ p.getD ((DecodeRune p).2 - 1) 0) := by
  rcases p with _ | ⟨p0, t⟩
  · exact absurd rfl hne
  · unfold DecodeRune
    simp only [List.getD_cons_zero]
    by_cases hx : first p0 ≥ 0xF0
    · rw [if_pos hx]
      simp
    · rw [if_neg hx]
      obtain ⟨h0, h1, h2, h3⟩ := first_multi p0 hx
      have hlo := acceptLo_ge (first p0 / 16) h3
      generalize first p0 % 8 = sz at *
      generalize acceptLo (first p0 / 16) = lo at *
      generalize acceptHi (first p0 / 16) = hi at *
      simp only [List.length_cons]
      split_ifs <;> simp only [Nat.add_one_sub_one, Nat.reduceSub] <;> omega

theorem IsSpace_32 : unicode.IsSpace 32 = true := by decide

theorem lastRuneStart_le (p : Bytes) (lim : Int) (fuel : Nat) (start : Int) :
    lastRuneStart p lim fuel start ≤ start := by
  induction fuel generalizing start with
  | zero => simp [lastRuneStart]
  | succ n ih =>
    unfold lastRuneStart
    split_ifs
    · exact le_refl _
    · have := ih (start - 1)
      omega
    · exact le_refl _

theorem DecodeLastRune_width (p : Bytes) (hne : p ≠ []) :
    1 ≤ (DecodeLastRune p).2 ∧ (DecodeLastRune p).2 ≤ p.length
    ∧ (0x80 ≤ p.getD (p.length - 1) 0 →
        0x80 ≤ p.getD (p.length - (DecodeLastRune p).2) 0) := by
  have hlen : 0 < p.length := List.length_pos.mpr hne
  unfold DecodeLastRune
  simp only
  rw [if_neg (by omega)]
  by_cases hr : p.getD (p.length - 1) 0 < RuneSelf
  · rw [if_pos hr]
    exact ⟨le_refl _, hlen, fun h => h⟩
  · rw [if_neg hr]
    generalize hlim : (if (p.length : Int) - UTFMax < 0 then (0 : Int)
      else (p.length : Int) - UTFMax) = lim
    have hle := lastRuneStart_le p lim UTFMax ((p.length : Int) - 2)
    generalize lastRuneStart p lim UTFMax ((p.length : Int) - 2) = start0 at hle ⊢
    generalize hst : (if start0 < 0 then 0 else start0.toNat) = start
    have hstart : start < p.length := by
      split_ifs at hst <;> omega
    have hdrop : p.drop start ≠ [] := by
      intro h
      have := congrArg List.length h
      simp only [List.length_drop, List.length_nil] at this
      omega
    obtain ⟨w1, w2, w3⟩ := DecodeRune_width (p.drop start) hdrop
    rw [List.length_drop] at w2
    by_cases hm : start + (DecodeRune (p.drop start)).2 ≠ p.length
    · rw [if_pos hm]
      exact ⟨le_refl _, hlen, fun h => h⟩
    · rw [if_neg hm]
      refine ⟨w1, by omega, fun h => ?_⟩
      have hidx : p.length - (DecodeRune (p.drop start)).2 = start := by omega
      rw [hidx]
      by_cases h2 : 2 ≤ (DecodeRune (p.drop start)).2
      · have := (w3 h2).1
        rw [List.getD_eq_getElem?_getD, List.getElem?_drop] at this
        rw [List.getD_eq_getElem?_getD]
        simpa using this
      · have : start = p.length - 1 := by omega
        rw [this]
        exact h

theorem lastRuneStart_fuel (p : Bytes) (lim : Int) (fuel extra : Nat) (start : Int)
    (h : start - lim < fuel) :
    lastRuneStart p lim (fuel + extra) start = lastRuneStart p lim fuel start := by
  induction fuel generalizing start with
  | zero =>
    cases extra with
    | zero => rfl
    | succ e =>
      have hlt : ¬ start ≥ lim := by
        simp only [Nat.cast_zero] at h
        omega
      simp [lastRuneStart, hlt]
  | succ n ih =>
    have hsucc : n + 1 + extra = (n + extra) + 1 := by omega
    rw [hsucc]
    unfold lastRuneStart
    by_cases hge : start ≥ lim
    · rw [if_pos hge, if_pos hge]
      split_ifs
      · rfl
      · exact ih (start - 1) (by push_cast at h; omega)
    · rw [if_neg hge, if_neg hge]

theorem indexFuncLoop_fuel (s : Bytes) (f : Nat → Bool) (truth : Bool)
    (fuel extra start : Nat) (h : s.length ≤ start + fuel) :
    indexFuncLoop s f truth (fuel + extra) start = indexFuncLoop s f truth fuel start := by
  induction fuel generalizing start with
  | zero =>
    cases extra with
    | zero => rfl
    | succ e =>
      have hlt : ¬ start < s.length := by omega
      simp [indexFuncLoop, hlt]
  | succ n ih =>
    have hsucc : n + 1 + extra = (n + extra) + 1 := by omega
    rw [hsucc]
    unfold indexFuncLoop
    by_cases hs : start < s.length
    · rw [if_pos hs, if_pos hs]
      simp only
      have hdrop : s.drop start ≠ [] := by
        intro hd
        have := congrArg List.length hd
        simp only [List.length_drop, List.length_nil] at this
        omega
      have hw := (DecodeRune_width (s.drop start) hdrop).1
      split_ifs
      · rfl
      · exact ih _ (by omega)
      · rfl
      · exact ih _ (by simp only; omega)
    · rw [if_neg hs, if_neg hs]

theorem lastIndexFuncLoop_fuel (s : Bytes) (f : Nat → Bool) (truth : Bool)
    (fuel extra i : Nat) (hi : i ≤ fuel) (hlen : i ≤ s.length) :
    lastIndexFuncLoop s f truth (fuel + extra) i = lastIndexFuncLoop s f truth fuel i := by
  induction fuel generalizing i with
  | zero =>
    cases extra with
    | zero => rfl
    | succ e =>
      have hlt : ¬ i > 0 := by omega
      simp [lastIndexFuncLoop, hlt]
  | succ n ih =>
    have hsucc : n + 1 + extra = (n + extra) + 1 := by omega
    rw [hsucc]
    unfold lastIndexFuncLoop
    by_cases hpos : i > 0
    · rw [if_pos hpos, if_pos hpos]
      simp only
      have htake : (s.take i).length = i := by
        rw [List.length_take]
        omega
      have hne : s.take i ≠ [] := by
        intro hd
        rw [hd] at htake
        simp only [List.length_nil] at htake
        omega
      have hw := (DecodeLastRune_width (s.take i) hne).1
      split_ifs
      · rfl
      · exact ih _ (by omega) (by omega)
      · rfl
      · exact ih _ (by simp only; omega) (by simp only; omega)
    · rw [if_neg hpos, if_neg hpos]

theorem indexFunc_fuel (s : Bytes) (f : Nat → Bool) (truth : Bool) (extra : Nat) :
    indexFuncLoop s f truth (s.length + extra) 0 = indexFunc s f truth :=
  indexFuncLoop_fuel s f truth s.length extra 0 (by omega)

theorem lastIndexFunc_fuel (s : Bytes) (f : Nat → Bool) (truth : Bool) (extra : Nat) :
    lastIndexFuncLoop s f truth (s.length + extra) s.length = lastIndexFunc s f truth :=
  lastIndexFuncLoop_fuel s f truth s.length extra s.length (le_refl _) (le_refl _)

theorem DecodeLastRune_scan_fuel (p : Bytes) (extra : Nat) :
    lastRuneStart p (if (p.length : Int) - UTFMax < 0 then 0 else (p.length : Int) - UTFMax)
        (UTFMax + extra) ((p.length : Int) - 2)
      = lastRuneStart p (if (p.length : Int) - UTFMax < 0 then 0 else (p.length : Int) - UTFMax)
        UTFMax ((p.length : Int) - 2) := by
  apply lastRuneStart_fuel
  unfold UTFMax
  split_ifs <;> push_cast <;> omega

theorem indexFuncLoop_space (s : Bytes) (fuel start : Nat) :
    indexFuncLoop s unicode.IsSpace false fuel start = -1
    ∨ ∃ k : Nat, indexFuncLoop s unicode.IsSpace false fuel start = (k : Int)
        ∧ k < s.length ∧ s.getD k 0 ≠ 32 := by
  induction fuel generalizing start with
  | zero => exact Or.inl rfl
  | succ n ih =>
    unfold indexFuncLoop
    by_cases hs : start < s.length
    · rw [if_pos hs]
      simp only
      by_cases hc : s.getD start 0 ≥ RuneSelf
      · rw [if_pos hc]
        by_cases hf : unicode.IsSpace (DecodeRune (s.drop start)).1 = false
        · rw [if_pos hf]
          refine Or.inr ⟨start, rfl, hs, ?_⟩
          unfold RuneSelf at hc
          omega
        · rw [if_neg hf]
          exact ih _
      · rw [if_neg hc]
        by_cases hf : unicode.IsSpace (s.getD start 0) = false
        · rw [if_pos hf]
          refine Or.inr ⟨start, rfl, hs, ?_⟩
          intro h32
          rw [h32, IsSpace_32] at hf
          exact Bool.noConfusion hf
        · rw [if_neg hf]
          exact ih _
    · rw [if_neg hs]
      exact Or.inl rfl

theorem TrimLeftFunc_head (s : Bytes) :
    (TrimLeftFunc s unicode.IsSpace)[0]? ≠ some 32 := by
  unfold TrimLeftFunc indexFunc
  rcases indexFuncLoop_space s s.length 0 with h | ⟨k, hk, hlt, hne⟩
  · simp [h]
  · rw [hk]
    have : ¬ ((k : Int) = -1) := by omega
    simp only [this, if_false, Int.toNat_ofNat, List.getElem?_drop, Nat.add_zero]
    rw [List.getD_eq_getElem?_getD] at hne
    intro h
    rw [h] at hne
    exact hne rfl

theorem lastIndexFuncLoop_space (s : Bytes) (fuel i : Nat) (hi : i ≤ s.length) :
    lastIndexFuncLoop s unicode.IsSpace false fuel i = -1
    ∨ ∃ k : Nat, lastIndexFuncLoop s unicode.IsSpace false fuel i = (k : Int)
        ∧ k < i ∧ s.getD k 0 ≠ 32 := by
  induction fuel generalizing i with
  | zero => exact Or.inl rfl
  | succ n ih =>
    unfold lastIndexFuncLoop
    by_cases hpos : i > 0
    · rw [if_pos hpos]
      simp only
      by_cases hc : s.getD (i - 1) 0 ≥ RuneSelf
      · rw [if_pos hc]
        have htake : (s.take i).length = i := by
          rw [List.length_take]
          omega
        have hne : s.take i ≠ [] := by
          intro h
          rw [h] at htake
          simp at htake
          omega
        obtain ⟨w1, w2, w3⟩ := DecodeLastRune_width (s.take i) hne
        rw [htake] at w2 w3
        have hget : ∀ j, j < i → (s.take i).getD j 0 = s.getD j 0 := by
          intro j hj
          rw [List.getD_eq_getElem?_getD, List.getD_eq_getElem?_getD, List.getElem?_take,
            if_pos hj]
        rw [hget _ (by omega), hget _ (by omega)] at w3
        unfold RuneSelf at hc
        have h80 := w3 hc
        by_cases hf : unicode.IsSpace (DecodeLastRune (s.take i)).1 = false
        · rw [if_pos hf]
          exact Or.inr ⟨_, rfl, by omega, by omega⟩
        · rw [if_neg hf]
          rcases ih (i - (DecodeLastRune (s.take i)).2) (by omega) with h | ⟨k, hk, hlt, hk32⟩
          · exact Or.inl h
          · exact Or.inr ⟨k, hk, by omega, hk32⟩
      · rw [if_neg hc]
        by_cases hf : unicode.IsSpace (s.getD (i - 1) 0) = false
        · rw [if_pos hf]
          refine Or.inr ⟨_, rfl, by omega, ?_⟩
          intro h32
          rw [h32, IsSpace_32] at hf
          exact Bool.noConfusion hf
        · rw [if_neg hf]
          rcases ih (i - 1) (by omega) with h | ⟨k, hk, hlt, hk32⟩
          · exact Or.inl h
          · exact Or.inr ⟨k, hk, by omega, hk32⟩
    · rw [if_neg hpos]
      exact Or.inl rfl

theorem TrimRightFunc_take (s : Bytes) :
    ∃ m : Nat, TrimRightFunc s unicode.IsSpace = s.take m ∧ m ≤ s.length
      ∧ (m = 0 ∨ s.getD (m - 1) 0 ≠ 32) := by
  unfold TrimRightFunc lastIndexFunc
  rcases lastIndexFuncLoop_space s s.length s.length (le_refl _) with h | ⟨k, hk, hlt, hne⟩
  · rw [h]
    refine ⟨0, ?_, Nat.zero_le _, Or.inl rfl⟩
    simp
  · rw [hk]
    simp only [Int.toNat_ofNat]
    by_cases hc : s.getD k 0 ≥ RuneSelf
    · have hcond : ((k : Int) ≥ 0 ∧ s.getD k 0 ≥ RuneSelf) := ⟨by omega, hc⟩
      rw [if_pos hcond]
      have hdrop : s.drop k ≠ [] := by
        intro h
        have := congrArg List.length h
        simp only [List.length_drop, List.length_nil] at this
        omega
      obtain ⟨w1, w2, w3⟩ := DecodeRune_width (s.drop k) hdrop
      rw [List.length_drop] at w2
      refine ⟨k + (DecodeRune (s.drop k)).2, rfl, by omega, Or.inr ?_⟩
      unfold RuneSelf at hc
      by_cases h2 : 2 ≤ (DecodeRune (s.drop k)).2
      · have := (w3 h2).2
        rw [List.getD_eq_getElem?_getD, List.getElem?_drop] at this
        rw [List.getD_eq_getElem?_getD]
        have hidx : k + ((DecodeRune (s.drop k)).2 - 1) = k + (DecodeRune (s.drop k)).2 - 1 := by
          omega
        rw [hidx] at this
        omega
      · have hidx : k + (DecodeRune (s.drop k)).2 - 1 = k := by omega
        rw [hidx]
        omega
    · have hcond : ¬ ((k : Int) ≥ 0 ∧ s.getD k 0 ≥ RuneSelf) := fun h => hc h.2
      rw [if_neg hcond]
      refine ⟨k + 1, ?_, by omega, Or.inr ?_⟩
      · have : ((k : Int) + 1).toNat = k + 1 := by omega
        rw [this]
      · simpa using hne

theorem take_trimmed (s : Bytes) (m : Nat) (hm : m ≤ s.length)
    (hhead : s[0]? ≠ some 32) (hlast : m = 0 ∨ s.getD (m - 1) 0 ≠ 32) :
    Trimmed (s.take m) := by
  have hlen : (s.take m).length = m := by
    rw [List.length_take]
    omega
  by_cases hm0 : m = 0
  · subst hm0
    simp [Trimmed]
  · refine ⟨?_, ?_⟩
    · rw [List.getElem?_take, if_pos (by omega)]
      exact hhead
    · rw [hlen, List.getElem?_take, if_pos (by omega)]
      rcases hlast with h0 | h
      · exact absurd h0 hm0
      · rw [List.getD_eq_getElem?_getD] at h
        intro hc
        rw [hc] at h
        exact h rfl

theorem TrimFunc_trimmed (s : Bytes) : Trimmed (TrimFunc s unicode.IsSpace) := by
  unfold TrimFunc
  obtain ⟨m, hm, hle, hlast⟩ := TrimRightFunc_take (TrimLeftFunc s unicode.IsSpace)
  rw [hm]
  exact take_trimmed _ m hle (TrimLeftFunc_head s) hlast

theorem asciiSpace_32 : asciiSpace 32 = true := by decide

theorem scanStart_done (l : Bytes) (k i : Nat) (h : scanStart l k = .done i) :
    ∃ j, i = k + j ∧ j ≤ l.length ∧ l[j]? ≠ some 32 := by
  induction l generalizing k with
  | nil =>
    simp only [scanStart, Scan.done.injEq] at h
    exact ⟨0, by omega, le_refl _, by simp⟩
  | cons c rest ih =>
    unfold scanStart at h
    split_ifs at h with h1 h2
    · obtain ⟨j, hj, hle, hne⟩ := ih (k + 1) h
      refine ⟨j + 1, by omega, by simp only [List.length_cons]; omega, ?_⟩
      simpa using hne
    · simp only [Scan.done.injEq] at h
      refine ⟨0, by omega, Nat.zero_le _, ?_⟩
      simp only [List.getElem?_cons_zero, ne_eq, Option.some.injEq]
      intro hc
      rw [hc, asciiSpace_32] at h2
      exact h2 rfl

theorem scanStop_done (s : Bytes) (start stop j : Nat)
    (h : scanStop s start stop = .done j) :
    j ≤ stop ∧ (start < j → s.getD (j - 1) 0 ≠ 32) := by
  induction stop with
  | zero =>
    simp only [scanStop, Scan.done.injEq] at h
    subst h
    exact ⟨le_refl _, fun hc => absurd hc (Nat.not_lt_zero _)⟩
  | succ n ih =>
    unfold scanStop at h
    by_cases h1 : n + 1 > start
    · rw [if_pos h1] at h
      simp only at h
      split_ifs at h with h2 h3
      · obtain ⟨hle, hne⟩ := ih h
        exact ⟨by omega, hne⟩
      · simp only [Scan.done.injEq] at h
        subst h
        refine ⟨le_refl _, fun _ => ?_⟩
        simp only [Nat.add_one_sub_one]
        intro hc
        rw [hc, asciiSpace_32] at h3
        exact h3 rfl
    · rw [if_neg h1] at h
      simp only [Scan.done.injEq] at h
      subst h
      exact ⟨le_refl _, fun hc => absurd hc h1⟩

theorem TrimSpace_trimmed (s : Bytes) : Trimmed (TrimSpace s) := by
  unfold TrimSpace
  cases h1 : scanStart s 0 with
  | slow start => exact TrimFunc_trimmed _
  | done start =>
    simp only
    obtain ⟨j, hj, hjle, hhead⟩ := scanStart_done s 0 start h1
    have hsj : start = j := by omega
    subst hsj
    cases h2 : scanStop s start s.length with
    | slow stop => exact TrimFunc_trimmed _
    | done stop =>
      simp only
      obtain ⟨hle, hlast⟩ := scanStop_done s start s.length stop h2
      by_cases heq : start = stop
      · rw [if_pos heq]
        simp [Trimmed]
      · rw [if_neg heq]
        by_cases hlt : start < stop
        · have hlen : ((s.take stop).drop start).length = stop - start := by
            rw [List.length_drop, List.length_take]
            omega
          refine ⟨?_, ?_⟩
          · rw [List.getElem?_drop, List.getElem?_take, if_pos (by omega)]
            simpa using hhead
          · rw [hlen, List.getElem?_drop, List.getElem?_take, if_pos (by omega)]
            have hidx : start + (stop - start - 1) = stop - 1 := by omega
            rw [hidx]
            have := hlast hlt
            rw [List.getD_eq_getElem?_getD] at this
            intro hc
            rw [hc] at this
            exact this rfl
        · have hnil : (s.take stop).drop start = [] := by
            apply List.drop_eq_nil_of_le
            rw [List.length_take]
            omega
          rw [hnil]
          simp [Trimmed]

end bytes

/-! ## Theorems: the CLI -/

namespace cli

open bytes

theorem set_of_space (args : Bytes) (h : 32 ∈ args) : set args = .ok ⟨.SET, args⟩ := by
  have : ¬ (Split args 32).length < 2 := fun hc => (Split_length_lt_two_iff args 32).1 hc h
  simp [set, this, NewPacket]

theorem set_of_no_space (args : Bytes) (h : 32 ∉ args) :
    set args = .error .ErrMissingKeyValueArg := by
  simp [set, (Split_length_lt_two_iff args 32).2 h]

theorem keyOf_ne_nil (t : Bytes) (hne : t ≠ []) (hhead : t[0]? ≠ some 32) :
    keyOf t ≠ [] := by
  rcases t with _ | ⟨a, rest⟩
  · exact absurd rfl hne
  · have ha : a ≠ 32 := by
      intro h
      apply hhead
      simp [h]
    simp [keyOf, List.takeWhile_cons, ha]

theorem valueOf_ne_nil (t : Bytes) (hmem : 32 ∈ t) (hlast : t.getLast? ≠ some 32) :
    valueOf t ≠ [] := by
  induction t with
  | nil => simp at hmem
  | cons a rest ih =>
    by_cases ha : a = 32
    · subst ha
      have hrest : rest ≠ [] := by
        intro h
        subst h
        simp at hlast
      simpa [valueOf, List.dropWhile_cons] using hrest
    · have hmem2 : 32 ∈ rest := by
        rcases List.mem_cons.mp hmem with h | h
        · exact absurd h.symm ha
        · exact h
      rcases rest with _ | ⟨b, rest2⟩
      · simp at hmem2
      · rw [List.getLast?_cons_cons] at hlast
        have := ih hmem2 hlast
        simpa [valueOf, List.dropWhile_cons, ha] using this

theorem Split_getLast_ne_nil (t : Bytes) (sep : Nat) (hne : t ≠ [])
    (hlast : t.getLast? ≠ some sep) :
    (Split t sep).getLast? ≠ some [] ∧ (Split t sep).getLast? ≠ none := by
  induction t with
  | nil => exact absurd rfl hne
  | cons a rest ih =>
    rcases rest with _ | ⟨b, rest2⟩
    · have ha : a ≠ sep := by
        intro h
        apply hlast
        simp [h]
      simp [Split, ha]
    · rw [List.getLast?_cons_cons] at hlast
      obtain ⟨i1, i2⟩ := ih (by simp) hlast
      unfold Split
      cases hsp : Split (b :: rest2) sep with
      | nil => exact absurd hsp (Split_ne_nil _ _)
      | cons u us =>
        rw [hsp] at i1 i2
        by_cases ha : a = sep
        · rw [if_pos ha]
          rw [List.getLast?_cons_cons]
          exact ⟨i1, i2⟩
        · rw [if_neg ha]
          simp only
          rcases us with _ | ⟨v, vs⟩
          · simp
          · rw [List.getLast?_cons_cons] at i1 i2 ⊢
            exact ⟨i1, i2⟩

theorem lastTokenOf_ne_nil (t : Bytes) (hne : t ≠ []) (hlast : t.getLast? ≠ some 32) :
    lastTokenOf t ≠ [] := by
  obtain ⟨h1, h2⟩ := Split_getLast_ne_nil t 32 hne hlast
  unfold lastTokenOf
  cases h : (Split t 32).getLast? with
  | none => exact absurd h h2
  | some u =>
    rw [h] at h1
    simpa using fun hu => h1 (by rw [hu])

/-- C1: `get(args)` and `del(args)` signal `ErrMissingKeyArg` (and so return no
packet) exactly when `args` is empty, and they succeed exactly when `args` is not
empty, with the packet of tag GET (resp. DEL) whose payload is `args` unchanged. -/
theorem get_del_missing_key (args : Bytes) :
    (get args = .error .ErrMissingKeyArg ↔ args = [])
    ∧ (get args = .ok ⟨.GET, args⟩ ↔ args ≠ [])
    ∧ (del args = .error .ErrMissingKeyArg ↔ args = [])
    ∧ (del args = .ok ⟨.DEL, args⟩ ↔ args ≠ []) := by
  by_cases h : args = []
  · subst h
    simp [get, del, bytes.Equal]
  · have hb : bytes.Equal args [] = false := by
      simpa [bytes.Equal] using h
    simp [get, del, hb, h, NewPacket]

/-- C2: `set(args)` signals `ErrMissingKeyValueArg` (and so returns no packet)
exactly when `args` has a single space-separated token, that is when it holds no
space byte, and otherwise it succeeds with the packet of tag SET whose payload is
`args` unchanged. -/
theorem set_missing_key_value (args : Bytes) :
    ((bytes.Split args 32).length = 1 ↔ 32 ∉ args)
    ∧ (set args = .error .ErrMissingKeyValueArg ↔ 32 ∉ args)
    ∧ (set args = .ok ⟨.SET, args⟩ ↔ 32 ∈ args) := by
  have hlen := Split_length_lt_two_iff args 32
  have hpos : 0 < (Split args 32).length := by
    rw [Split_length]
    omega
  refine ⟨⟨fun h => hlen.1 (by omega), fun h => by have := hlen.2 h; omega⟩, ?_, ?_⟩
  · by_cases h : 32 ∈ args
    · simp [set_of_space args h, h]
    · simp [set_of_no_space args h, h]
  · by_cases h : 32 ∈ args
    · simp [set_of_space args h, h]
    · simp [set_of_no_space args h, h]

theorem rawCmdOf_isSome (data : Bytes) : ∃ rawCmd, rawCmdOf data = some rawCmd := by
  unfold rawCmdOf
  cases h : bytes.Split data 32 with
  | nil => exact absurd h (bytes.Split_ne_nil data 32)
  | cons t ts => exact ⟨t, by simp⟩

theorem ofBuilder_ne_panicked (e : Except Error Packet) :
    Outcome.ofBuilder e ≠ .panicked := by
  cases e <;> simp [Outcome.ofBuilder]

theorem preprocessPacket_ne_panicked (mapLower : Bytes → Bytes) (data : Bytes) :
    preprocessPacket mapLower data ≠ .panicked := by
  obtain ⟨rawCmd, hraw⟩ := rawCmdOf_isSome data
  unfold preprocessPacket
  rw [hraw]
  simp only
  split_ifs <;> first | exact ofBuilder_ne_panicked _ | simp

/-- C3: for every input line, the empty line included, `preprocess` is defined: the
index `[0]` into the result of `bytes.Split` is in range, so there is a first token
and no panic.  Whenever the lower-cased, whitespace-trimmed first token is none of
`set`, `get`, `del`, `list`, `keys`, `flush`, `info`, `exit`, the call returns
`ErrCommandDoesNotExist` with no packet, and the loop of `Start` sends nothing, so
the server and its store are not reached. -/
theorem preprocess_unknown_command (mapLower : Bytes → Bytes)
    (encode : Packet → Option Bytes) (data : Bytes) :
    ∃ rawCmd, rawCmdOf data = some rawCmd
      ∧ preprocess mapLower encode data ≠ .panicked
      ∧ (cmdOf mapLower rawCmd ∉ commandTokens →
          preprocessPacket mapLower data = .error .ErrCommandDoesNotExist
          ∧ preprocess mapLower encode data = .error .ErrCommandDoesNotExist
          ∧ startSends mapLower encode data = none) := by
  obtain ⟨rawCmd, hraw⟩ := rawCmdOf_isSome data
  refine ⟨rawCmd, hraw, ?_, ?_⟩
  · have hp := preprocessPacket_ne_panicked mapLower data
    unfold preprocess
    cases h : preprocessPacket mapLower data with
    | ok pk =>
      dsimp only
      cases encode pk <;> simp
    | error e => simp
    | exit => simp
    | panicked => exact absurd h hp
  · intro hcmd
    simp only [commandTokens, List.mem_cons, List.mem_singleton, List.not_mem_nil,
      or_false, not_or] at hcmd
    obtain ⟨h1, h2, h3, h4, h5, h6, h7, h8⟩ := hcmd
    have hpk : preprocessPacket mapLower data = .error .ErrCommandDoesNotExist := by
      unfold preprocessPacket
      rw [hraw]
      simp only [h1, h2, h3, h4, h5, h6, h7, h8, if_false]
    refine ⟨hpk, ?_, ?_⟩
    · simp [preprocess, hpk]
    · simp [startSends, preprocess, hpk]

/-- C3 at a concrete input: the line `foo bar` with its newline, whose first
token `foo` is no command. -/
theorem preprocess_unknown_command_witness :
    cmdOf id [102, 111, 111] ∉ commandTokens
    ∧ preprocess id (fun _ => none) [102, 111, 111, 32, 98, 97, 114, 10]
        = .error .ErrCommandDoesNotExist := by
  obtain ⟨rawCmd, hraw, _, h⟩ :=
    preprocess_unknown_command id (fun _ => none) [102, 111, 111, 32, 98, 97, 114, 10]
  have hr : rawCmd = [102, 111, 111] := by
    have h0 : rawCmdOf [102, 111, 111, 32, 98, 97, 114, 10] = some [102, 111, 111] := by
      decide
    rw [h0] at hraw
    exact (Option.some.inj hraw).symm
  subst hr
  have hc : cmdOf id [102, 111, 111] ∉ commandTokens := by decide
  exact ⟨hc, (h hc).2.1⟩

/-- C6: for every input line whose command token is `set` in any letter case (the
lower-cased, trimmed first token is `set`), `preprocess` signals
`ErrMissingKeyValueArg` whenever the key or the value is missing: either the
trimmed argument text holds no space and the call returns that error, or it builds
the SET packet with that text as payload, and then the payload's key (the text
before its first space) is non-empty, its value (the text after that first space) is
non-empty, and its last space-separated token is non-empty. -/
theorem set_line_has_key_and_value (mapLower : Bytes → Bytes)
    (encode : Packet → Option Bytes) (data rawCmd : Bytes)
    (hraw : rawCmdOf data = some rawCmd) (hset : cmdOf mapLower rawCmd = Tag.SET.String) :
    (32 ∉ argsOf data rawCmd
      ∧ preprocessPacket mapLower data = .error .ErrMissingKeyValueArg
      ∧ preprocess mapLower encode data = .error .ErrMissingKeyValueArg)
    ∨ (32 ∈ argsOf data rawCmd
      ∧ preprocessPacket mapLower data = .ok ⟨.SET, argsOf data rawCmd⟩
      ∧ keyOf (argsOf data rawCmd) ≠ []
      ∧ valueOf (argsOf data rawCmd) ≠ []
      ∧ lastTokenOf (argsOf data rawCmd) ≠ []) := by
  have hpk : preprocessPacket mapLower data = Outcome.ofBuilder (set (argsOf data rawCmd)) := by
    unfold preprocessPacket
    rw [hraw]
    simp only [hset, if_true]
  by_cases hmem : 32 ∈ argsOf data rawCmd
  · right
    have htrim : Trimmed (argsOf data rawCmd) := TrimSpace_trimmed _
    have hne : argsOf data rawCmd ≠ [] := List.ne_nil_of_mem hmem
    have hlast : (argsOf data rawCmd).getLast? ≠ some 32 := by
      rw [List.getLast?_eq_getElem?]
      exact htrim.2
    refine ⟨hmem, ?_, keyOf_ne_nil _ hne htrim.1, valueOf_ne_nil _ hmem hlast,
      lastTokenOf_ne_nil _ hne hlast⟩
    rw [hpk, set_of_space _ hmem]
    rfl
  · left
    have hp : preprocessPacket mapLower data = .error .ErrMissingKeyValueArg := by
      rw [hpk, set_of_no_space _ hmem]
      rfl
    refine ⟨hmem, hp, ?_⟩
    simp [preprocess, hp]

/-- C6 at a concrete input: the line `SET a b` with its newline builds the SET
packet with payload `a b`. -/
theorem set_line_has_key_and_value_witness :
    rawCmdOf [83, 69, 84, 32, 97, 32, 98, 10] = some [83, 69, 84]
    ∧ cmdOf id [83, 69, 84] = Tag.SET.String
    ∧ preprocessPacket id [83, 69, 84, 32, 97, 32, 98, 10] = .ok ⟨.SET, [97, 32, 98]⟩ := by
  have h1 : rawCmdOf [83, 69, 84, 32, 97, 32, 98, 10] = some [83, 69, 84] := by decide
  have h2 : cmdOf id [83, 69, 84] = Tag.SET.String := by decide
  have h3 : argsOf [83, 69, 84, 32, 97, 32, 98, 10] [83, 69, 84] = [97, 32, 98] := by decide
  rcases set_line_has_key_and_value id (fun _ => none) _ _ h1 h2 with h | h
  · rw [h3] at h
    exact absurd (by decide) h.1
  · rw [h3] at h
    exact ⟨h1, h2, h.2.1⟩

end cli

/-! ## Theorems: the AOF persistor -/

namespace storage

theorem bufioFlush_open (a : AOFPersistor) (hopen : a.file.closed = false)
    (herr : a.writer.err = false) :
    (bufioFlush a).1.file.closed = false ∧ (bufioFlush a).1.writer.err = false
    ∧ (bufioFlush a).1.file.content = a.file.content ++ a.writer.buf
    ∧ (bufioFlush a).1.writer.buf = [] ∧ (bufioFlush a).2 = false := by
  unfold bufioFlush
  rw [herr]
  by_cases hb : a.writer.buf.length = 0
  · have hnil : a.writer.buf = [] := List.length_eq_zero.mp hb
    simp [hb, hopen, herr, hnil]
  · simp [hb, File.Write, hopen]

theorem writeLoop_nil (fuel : Nat) (a : AOFPersistor) : writeLoop fuel a [] = (a, []) := by
  cases fuel with
  | zero => rfl
  | succ n => simp [writeLoop]

theorem writeLoop_inv (fuel : Nat) (a : AOFPersistor) (p : Bytes)
    (hopen : a.file.closed = false) (herr : a.writer.err = false) :
    (writeLoop fuel a p).1.file.closed = false
    ∧ (writeLoop fuel a p).1.writer.err = false
    ∧ (writeLoop fuel a p).1.file.content ++ (writeLoop fuel a p).1.writer.buf
        ++ (writeLoop fuel a p).2 = a.file.content ++ a.writer.buf ++ p := by
  induction fuel generalizing a p with
  | zero => simp [writeLoop, hopen, herr]
  | succ n ih =>
    unfold writeLoop
    by_cases hc : p.length > available a.writer ∧ a.writer.err = false
    · rw [if_pos hc]
      by_cases hb : a.writer.buf.length = 0
      · rw [if_pos hb]
        have hnil : a.writer.buf = [] := List.length_eq_zero.mp hb
        simp only [File.Write, hopen, Bool.false_eq_true, if_false, List.drop_length]
        rw [writeLoop_nil]
        simp [hnil]
      · rw [if_neg hb]
        simp only
        obtain ⟨f1, f2, f3, f4, _⟩ := bufioFlush_open
          (AOFPersistor.mk a.file
            ⟨a.writer.buf ++ p.take (min (available a.writer) p.length), a.writer.err⟩
            a.runners)
          hopen herr
        obtain ⟨i1, i2, i3⟩ := ih _ (p.drop (min (available a.writer) p.length)) f1 f2
        refine ⟨i1, i2, ?_⟩
        rw [i3, f3, f4]
        simp
    · rw [if_neg hc]
      simp [hopen, herr]

theorem writeLoop_exit_empty (fuel : Nat) (a : AOFPersistor) (p : Bytes)
    (hopen : a.file.closed = false) (herr : a.writer.err = false)
    (hbuf : a.writer.buf = []) :
    (writeLoop (fuel + 1) a p).2.length ≤ available (writeLoop (fuel + 1) a p).1.writer := by
  unfold writeLoop
  by_cases hc : p.length > available a.writer ∧ a.writer.err = false
  · rw [if_pos hc]
    simp only [hbuf, List.length_nil, if_true, File.Write, hopen, Bool.false_eq_true,
      if_false, List.drop_length]
    rw [writeLoop_nil]
    simp
  · rw [if_neg hc]
    simp only [herr, and_true, not_lt] at hc
    exact hc

theorem writeLoop_exit (fuel : Nat) (a : AOFPersistor) (p : Bytes)
    (hopen : a.file.closed = false) (herr : a.writer.err = false) :
    (writeLoop (fuel + 2) a p).2.length ≤ available (writeLoop (fuel + 2) a p).1.writer := by
  by_cases hb : a.writer.buf.length = 0
  · exact writeLoop_exit_empty (fuel + 1) a p hopen herr (List.length_eq_zero.mp hb)
  · unfold writeLoop
    by_cases hc : p.length > available a.writer ∧ a.writer.err = false
    · rw [if_pos hc, if_neg hb]
      simp only
      obtain ⟨f1, f2, _, f4, _⟩ := bufioFlush_open
        (AOFPersistor.mk a.file
          ⟨a.writer.buf ++ p.take (min (available a.writer) p.length), a.writer.err⟩
          a.runners)
        hopen herr
      exact writeLoop_exit_empty fuel _ _ f1 f2 f4
    · rw [if_neg hc]
      simp only [herr, and_true, not_lt] at hc
      exact hc

theorem writeLoop_exit_any (fuel : Nat) (a : AOFPersistor) (p : Bytes) :
    ¬ ((writeLoop (fuel + 2) a p).2.length > available (writeLoop (fuel + 2) a p).1.writer
        ∧ (writeLoop (fuel + 2) a p).1.writer.err = false) := by
  by_cases herr : a.writer.err = false
  · by_cases hopen : a.file.closed = false
    · have := writeLoop_exit fuel a p hopen herr
      intro h
      omega
    · have hclosed : a.file.closed = true := by simpa using hopen
      unfold writeLoop
      by_cases hc : p.length > available a.writer ∧ a.writer.err = false
      · rw [if_pos hc]
        by_cases hb : a.writer.buf.length = 0
        · rw [if_pos hb]
          simp only [File.Write, hclosed, if_true, List.drop_zero]
          unfold writeLoop
          simp
        · rw [if_neg hb]
          simp only
          have hfl : (bufioFlush (AOFPersistor.mk a.file
              ⟨a.writer.buf ++ p.take (min (available a.writer) p.length), a.writer.err⟩
              a.runners)).1.writer.err
              = true := by
            unfold bufioFlush
            have hlen : ¬ (a.writer.buf ++ p.take (min (available a.writer) p.length)).length = 0 := by
              rw [List.length_append]
              omega
            simp only [herr, Bool.false_eq_true, if_false, hlen, File.Write, hclosed, if_true]
          unfold writeLoop
          simp [hfl]
      · rw [if_neg hc]
        exact hc
  · have herr2 : a.writer.err = true := by simpa using herr
    unfold writeLoop
    simp [herr2]

theorem bufioWrite_inv (a : AOFPersistor) (p : Bytes)
    (hopen : a.file.closed = false) (herr : a.writer.err = false) :
    (bufioWrite a p).file.closed = false ∧ (bufioWrite a p).writer.err = false
    ∧ (bufioWrite a p).file.content ++ (bufioWrite a p).writer.buf
        = a.file.content ++ a.writer.buf ++ p := by
  obtain ⟨i1, i2, i3⟩ := writeLoop_inv (p.length + 2) a p hopen herr
  have hx := writeLoop_exit p.length a p hopen herr
  have hw : bufioWrite a p = AOFPersistor.mk (writeLoop (p.length + 2) a p).1.file
      ⟨(writeLoop (p.length + 2) a p).1.writer.buf ++ (writeLoop (p.length + 2) a p).2,
        (writeLoop (p.length + 2) a p).1.writer.err⟩
      (writeLoop (p.length + 2) a p).1.runners := by
    unfold bufioWrite
    simp only [i2, Bool.false_eq_true, if_false]
    rw [Nat.min_eq_right hx, List.take_length]
  rw [hw]
  refine ⟨i1, i2, ?_⟩
  rw [← List.append_assoc]
  exact i3

theorem writeAll_inv (records : List Bytes) (a : AOFPersistor)
    (hopen : a.file.closed = false) (herr : a.writer.err = false) :
    (writeAll a records).file.closed = false ∧ (writeAll a records).writer.err = false
    ∧ (writeAll a records).file.content ++ (writeAll a records).writer.buf
        = a.file.content ++ a.writer.buf ++ logText records := by
  induction records generalizing a with
  | nil => simp [writeAll, logText, hopen, herr]
  | cons r rs ih =>
    obtain ⟨w1, w2, w3⟩ := bufioWrite_inv a (r ++ [10]) hopen herr
    obtain ⟨i1, i2, i3⟩ := ih (a.Write r) w1 w2
    have hstep : writeAll a (r :: rs) = writeAll (a.Write r) rs := rfl
    rw [hstep]
    refine ⟨i1, i2, ?_⟩
    rw [i3]
    unfold AOFPersistor.Write
    rw [w3]
    simp [logText]

/-- C7: for every initial file content `F` with an empty pending buffer and every
sequence of records `r1..rn` (newline-free or not), `Write(r1), ..., Write(rn)` and
then `Flush()` leave the file equal to `F` followed by `r1+"\n", ..., rn+"\n"` in
issue order, with nothing left pending and no error from `Flush`. -/
theorem writes_then_flush_append (F : Bytes) (records : List Bytes) :
    ((writeAll (NewAOFPersistor F) records).Flush).1.file.content = F ++ logText records
    ∧ ((writeAll (NewAOFPersistor F) records).Flush).1.writer.buf = []
    ∧ ((writeAll (NewAOFPersistor F) records).Flush).2 = false := by
  obtain ⟨i1, i2, i3⟩ := writeAll_inv records (NewAOFPersistor F) rfl rfl
  obtain ⟨_, _, f3, f4, f5⟩ := bufioFlush_open _ i1 i2
  refine ⟨?_, f4, f5⟩
  unfold AOFPersistor.Flush
  rw [f3, i3]
  simp [NewAOFPersistor]

/-- C8 (the code at the failing input): on an empty log, `Write("SET k v")`, then
`Truncate()`, then `Flush()` with no `Write` in between leave the file holding
`"SET k v\n"`: `Truncate` empties the file but not the writer's buffer, and the
next flush appends the record written before the truncation. -/
theorem truncate_then_flush_keeps_pending :
    ((((NewAOFPersistor []).Write [83, 69, 84, 32, 107, 32, 118]).Truncate).1.Flush).1.file.content
      = [83, 69, 84, 32, 107, 32, 118, 10]
    ∧ ((((NewAOFPersistor []).Write [83, 69, 84, 32, 107, 32, 118]).Truncate).1.Flush).2
      = false := by
  decide

end storage

end KVStore
